import Mathlib

/-!
Verification development for the `if-changed` tool.

The development shallowly embeds the three components of the tool:

* the annotation-block parser (`src/parser.rs`), modelled over files given as
  lists of lines, each line a `List Char` (no trailing newline, as produced by
  `BufRead::lines`);
* the git-backed change oracle (`src/engine/git.rs`): pattern matching over
  the set of changed paths (`GitEngine::matches`), the hunk walk
  (`GitEngine::is_range_modified`) over patch data given as explicit values,
  and the commit-trailer exemption logic (`ignore_pathspec` /
  `GitEngine::is_ignored`);
* the obligation checker (`Engine::check` in `src/engine.rs`, the
  implementation that is part of the crate's module tree).

Strings are modelled as `List Char`; Rust's in-place slice mutation becomes
explicit recomputation.  `char::is_whitespace` is modelled by
`Char.isWhitespace`, which agrees on the ASCII inputs the tool manipulates.
The pathspec matching performed by libgit2 (`git2::Pathspec::match_diff` with
`FIND_FAILURES`) is modelled after the gitignore-order semantics the source
relies on (see the comment in `GitEngine::matches`: patterns are reversed so
the first matching pattern in reversed order wins, a `!`-prefixed winner
excludes the path, and a pattern that matched no changed path at all is a
failure); the model is validated below against the snapshot expectations of
the repository's own `test_matches`, `test_git` and `test_git_without_head`
tests.
-/

namespace IfChanged

/-! ## Basic text utilities (List Char model of Rust str operations) -/

/-- Model of `str::trim_start`: drop leading whitespace. -/
def skipWs (l : List Char) : List Char := l.dropWhile Char.isWhitespace

/-- Model of `str::trim_end`. -/
def trimEnd (l : List Char) : List Char := (l.reverse.dropWhile Char.isWhitespace).reverse

/-- Model of `str::trim`. -/
def trim (l : List Char) : List Char := trimEnd (skipWs l)

/-- Model of `str::strip_prefix` (named to avoid clashing with library names):
`stripLit p l = some r` iff `l = p ++ r`. -/
def stripLit : List Char → List Char → Option (List Char)
  | [], l => some l
  | _ :: _, [] => none
  | p :: ps, c :: cs => if p = c then stripLit ps cs else none

/-- Index of the first occurrence of a character, as in `str::find(char)`. -/
def findCharIdx? (ch : Char) : List Char → Option Nat
  | [] => none
  | c :: cs => if c = ch then some 0 else (findCharIdx? ch cs).map (· + 1)

/-- Whether `p` is a leading segment of `l`. -/
def startsWithL (p l : List Char) : Bool := (stripLit p l).isSome

/-- Index of the first occurrence of a substring, as in `str::find(&str)`. -/
def findSubIdx? (p : List Char) : List Char → Option Nat
  | [] => if p = [] then some 0 else none
  | c :: cs => if startsWithL p (c :: cs) then some 0 else (findSubIdx? p cs).map (· + 1)

/-- Model of `str::split_once(ch)`. -/
def splitOnceChar (ch : Char) (l : List Char) : Option (List Char × List Char) :=
  (findCharIdx? ch l).map fun i => (l.take i, l.drop (i + 1))

/-- Auxiliary accumulator-based splitter. -/
def splitOnCharAux (ch : Char) : List Char → List Char → List (List Char)
  | [], acc => [acc.reverse]
  | c :: cs, acc =>
    if c = ch then acc.reverse :: splitOnCharAux ch cs [] else splitOnCharAux ch cs (c :: acc)

/-- Model of `split` on a single character (every occurrence splits). -/
def splitOnChar (ch : Char) (l : List Char) : List (List Char) := splitOnCharAux ch l []

/-- Model of `[u8]::to_ascii_lowercase` on the ASCII text the tool compares. -/
def lowerAscii (l : List Char) : List Char := l.map Char.toLower

/-- Byte-wise strict order on paths, modelling the `Ord` used by
`BTreeMap<&Path, _>` (component-wise order coincides with byte order on the
separator-free ASCII paths manipulated here). -/
def lexLt : List Char → List Char → Bool
  | [], [] => false
  | [], _ :: _ => true
  | _ :: _, [] => false
  | a :: xs, b :: ys => if a = b then lexLt xs ys else decide (a < b)

/-! ## Parser data model (src/if-changed.rs) -/

/-- Mirror of `struct Pattern` in `src/if-changed.rs`: one obligation. -/
structure Pattern where
  name : Option (List Char)
  value : List Char
  line : Nat
deriving DecidableEq, Repr

/-- Mirror of `struct IfChangedBlock` in `src/if-changed.rs`. -/
structure IfChangedBlock where
  name : Option (List Char)
  range : Nat × Nat
  patterns : List Pattern
deriving DecidableEq, Repr

/-- Structured rendering of every message format the tool can produce; each
constructor carries exactly the data interpolated into the corresponding Rust
format string. -/
inductive Msg where
  /-- Rendering of `Failed to read ...`: failure of `Parser::new` to open the file. -/
  | failedOpen (path : List Char)
  /-- Rendering of `Could not find \')\' for "if-changed" at line ...`. -/
  | noRParenIfChanged (line : Nat)
  /-- Rendering of `Could not find \'(\' for "then-change" at line ...`. -/
  | noLParenThenChange (line : Nat)
  /-- Rendering of `Could not find \')\' for "then-change" at line ...`. -/
  | noRParenThenChange (line : Nat)
  /-- Rendering of `Unexpected empty path at line ... for "then-change" at line ...`. -/
  | emptyPath (patLine : Nat) (tcLine : Nat)
  /-- Rendering of `Missing "if-changed" for "then-change" at line ...`. -/
  | missingIfChanged (line : Nat)
  /-- Rendering of `Missing "then-changed" for "if-changed" at line ...` (sic). -/
  | missingThenChange (line : Nat)
  /-- Rendering of `Expected ... to be modified because of "then-change" in ... at line ...`. -/
  | expectedModified (path : List Char) (file : List Char) (line : Nat)
  /-- Rendering of `Could not find any file matching ... for "then-change" in ...
  at line ...` — present in the message vocabulary of the specification and of
  the superseded `Checker::check`. -/
  | couldNotFindFile (pat : List Char) (file : List Char) (line : Nat)
  /-- Rendering of `Could not find "if-changed" with name ... in ... for
  "then-change" in ... at line ...`. -/
  | couldNotFindName (name : List Char) (target : List Char) (file : List Char) (line : Nat)
  /-- Rendering of `Could not open ... for "then-change" in ... at line ...`. -/
  | couldNotOpen (target : List Char) (file : List Char) (line : Nat)
deriving DecidableEq, Repr

/-! ## The block parser (src/parser.rs) -/

/-- Mirror of `COMMENT_START_TOKENS` (the duplicated `'!'` of the source array
is immaterial to `trim_start_matches`). -/
def COMMENT_START_TOKENS : List Char :=
  ['/', '#', '-', '\'', ';', 'R', 'E', 'M', '!', '*', '<', '!']

/-- A character stripped by `skip_comments`. -/
def commentChar (c : Char) : Bool := COMMENT_START_TOKENS.contains c

/-- Mirror of `Parser::skip_comments`: strip whitespace, then any run of
comment-start characters. -/
def skipComments (l : List Char) : List Char := (skipWs l).dropWhile commentChar

/-- Outcome of `Parser::parse_if_changed` on the current line: a structural
error, no marker (with the line as mutated by the failed attempts), or a
marker with its optional parenthesized name. -/
inductive IfcOut where
  | err (msgs : List Msg)
  | noMarker (cur : List Char)
  | marker (name : Option (List Char)) (cur : List Char)
deriving DecidableEq, Repr

/-- Mirror of `Parser::parse_if_changed` combined with
`Parser::parse_if_changed_name`.  `skip_whitespaces_and_eat` mutates the line
past the whitespace even when the subsequent `strip_prefix` fails, which is
why the failure branches keep `skipWs` applied. -/
def parseIfChanged (lineNo : Nat) (l : List Char) : IfcOut :=
  let c0 := skipWs (skipComments l)
  match stripLit ("if-changed".toList) c0 with
  | none => .noMarker c0
  | some c1 =>
    match stripLit ['('] (skipWs c1) with
    | none => .marker none (skipWs c1)
    | some c2 =>
      match findCharIdx? ')' c2 with
      | none => .err [.noRParenIfChanged lineNo]
      | some e => .marker (some (trim (c2.take e))) (c2.drop (e + 1))

/-- Mirror of `Parser::find_and_eat("then-change")`: the text after the first
occurrence of the marker, if any. -/
def findThenChange (cur : List Char) : Option (List Char) :=
  (findSubIdx? ("then-change".toList) cur).map
    fun i => cur.drop (i + ("then-change".toList).length)

/-- Result of scanning the current physical line inside a `then-change`
argument list. -/
inductive ScanResult where
  /-- The line was exhausted (after whitespace stripping) without closing the
  list; parsing must continue on the next line. -/
  | needMore (buffer : List Char) (patLine : Nat) (acc : List Pattern)
  /-- The closing parenthesis was found; `acc` is the complete pattern list. -/
  | done (acc : List Pattern)
  /-- Error `Unexpected empty path` at `patLine`. -/
  | fail (patLine : Nat)
deriving DecidableEq, Repr

/-- One-line scanning loop of `Parser::parse_then_change_paths`, fuelled for
structural recursion: each step consumes at least one character of `cur`, so
`cur.length + 1` fuel (supplied by `scanLine`) always suffices.

The branch structure mirrors the source loop exactly: a `\` flushes the
trimmed buffer and resumes after it; otherwise the first `,`, else the first
`)`, else end of line delimits the entry; an entry containing `:` splits into
pattern and name; an empty entry is the permitted trailing-comma artifact when
the `)` was just found and an error otherwise. -/
def scanLineF (fuel : Nat) (lineNo : Nat) (cur buffer : List Char) (patLine : Nat)
    (acc : List Pattern) : ScanResult :=
  match fuel with
  | 0 => .needMore buffer patLine acc
  | fuel + 1 =>
    let c := skipWs cur
    if c = [] then .needMore buffer patLine acc
    else
      let pl := if patLine = 0 then lineNo else patLine
      match findCharIdx? '\\' c with
      | some i => scanLineF fuel lineNo (c.drop (i + 1)) (buffer ++ trim (c.take i)) pl acc
      | none =>
        let step : Nat × Nat × Bool :=
          match findCharIdx? ',' c with
          | some i => (i, 1, false)
          | none =>
            match findCharIdx? ')' c with
            | some i => (i, 1, true)
            | none => (c.length, 0, false)
        let buf := buffer ++ trim (c.take step.1)
        let cur' := c.drop (step.1 + step.2.1)
        let rp := step.2.2
        match splitOnceChar ':' buf with
        | some pn =>
          let pat : Pattern := ⟨some (trim pn.2), trim pn.1, pl⟩
          if rp then .done (acc ++ [pat]) else scanLineF fuel lineNo cur' [] 0 (acc ++ [pat])
        | none =>
          if buf = [] then
            if rp then .done acc else .fail pl
          else
            let pat : Pattern := ⟨none, buf, pl⟩
            if rp then .done (acc ++ [pat]) else scanLineF fuel lineNo cur' [] 0 (acc ++ [pat])

/-- Scan the current line with always-sufficient fuel. -/
def scanLine (lineNo : Nat) (cur buffer : List Char) (patLine : Nat)
    (acc : List Pattern) : ScanResult :=
  scanLineF (cur.length + 1) lineNo cur buffer patLine acc

/-- Result of `parse_then_change_paths`: the obligations (or the error list),
together with the number of continuation lines consumed from the input. -/
inductive PtcOut where
  | ok (pats : List Pattern) (consumed : Nat)
  | fail (msgs : List Msg) (consumed : Nat)
deriving DecidableEq, Repr

/-- Multi-line driver of `parse_then_change_paths`: when the current line is
exhausted, fetch the next line (reporting the unterminated-list error naming
the `then-change` line when the input ends), strip its comment prefix, and
continue scanning. -/
def ptcLines (tcLine lineNo : Nat) (cur buffer : List Char) (patLine : Nat)
    (acc : List Pattern) (rest : List (List Char)) : PtcOut :=
  match scanLine lineNo cur buffer patLine acc with
  | .done pats => .ok pats 0
  | .fail pl => .fail [.emptyPath pl tcLine] 0
  | .needMore b pl a =>
    match rest with
    | [] => .fail [.noRParenThenChange tcLine] 0
    | l :: rest' =>
      match ptcLines tcLine (lineNo + 1) (skipComments l) b pl a rest' with
      | .ok pats k => .ok pats (k + 1)
      | .fail m k => .fail m (k + 1)

/-- Mirror of `Parser::parse_then_change_paths`: eat the `(` (whitespace is
consumed even on failure), then run the scanning loop.  `tcLine` is the line
number of the `then-change` marker. -/
def parseThenChangePaths (tcLine : Nat) (cur : List Char) (rest : List (List Char)) : PtcOut :=
  match stripLit ['('] (skipWs cur) with
  | none => .fail [.noLParenThenChange tcLine] 0
  | some cur' => ptcLines tcLine tcLine cur' [] 0 [] rest

/-- Mirror of `<Parser as Iterator>::next`, iterated to exhaustion.  The first
component is the sequence of yielded items; the second is the stack of blocks
still open when end-of-input is reached (before `mem::take` empties it).

Per line (the `while self.next_line()` loop): try `parse_if_changed` (a name
error is yielded and parsing resumes on the next line; a marker pushes a block
opened at the current line); then `find_and_eat("then-change")` on the
remaining text.  On a `then-change`, the marker's line is captured before the
argument list is parsed (the list may span further lines, all consumed here);
an argument-list error pops the top block silently, prepending a
`Missing "if-changed"` message (at the line reached by then) only when the
stack was already empty; success pops the top block, closes its range at the
marker line and yields it, or yields `Missing "if-changed"` at the marker line
if no block was open.  At end of input the blocks still open are reported as
one batched error. -/
def parseRun (lineNo : Nat) (rest : List (List Char)) (blocks : List IfChangedBlock) :
    List (Except (List Msg) IfChangedBlock) × List IfChangedBlock :=
  match rest with
  | [] =>
    (if blocks = [] then []
     else [.error ((blocks.reverse.filter fun b => b.range.2 == 0).map
        fun b => Msg.missingThenChange b.range.1)],
     blocks)
  | l :: rest' =>
    let n := lineNo + 1
    match parseIfChanged n l with
    | .err e =>
      let r := parseRun n rest' blocks
      (.error e :: r.1, r.2)
    | out =>
      let st : List IfChangedBlock × List Char :=
        match out with
        | .err _ => (blocks, [])
        | .noMarker c => (blocks, c)
        | .marker nm c => (⟨nm, (n, 0), []⟩ :: blocks, c)
      match findThenChange st.2 with
      | none => parseRun n rest' st.1
      | some cur2 =>
        match parseThenChangePaths n cur2 rest' with
        | .fail msgs k =>
          match st.1 with
          | [] =>
            let r := parseRun (n + k) (rest'.drop k) []
            (.error (.missingIfChanged (n + k) :: msgs) :: r.1, r.2)
          | _ :: bs =>
            let r := parseRun (n + k) (rest'.drop k) bs
            (.error msgs :: r.1, r.2)
        | .ok pats k =>
          match st.1 with
          | [] =>
            let r := parseRun (n + k) (rest'.drop k) []
            (.error [.missingIfChanged n] :: r.1, r.2)
          | b :: bs =>
            let r := parseRun (n + k) (rest'.drop k) bs
            ((.ok ⟨b.name, (b.range.1, n), pats⟩) :: r.1, r.2)
termination_by rest.length
decreasing_by all_goals (simp [List.length_drop]; try omega)

/-- The sequence of items yielded by a parser run over a whole file. -/
def parseAll (ls : List (List Char)) : List (Except (List Msg) IfChangedBlock) :=
  (parseRun 0 ls []).1

/-- The blocks still open when the parser reaches end of input. -/
def openAtEof (ls : List (List Char)) : List IfChangedBlock :=
  (parseRun 0 ls []).2

/-! ## The change oracle (src/engine/git.rs) -/

/-- One line of a diff hunk as exposed by `git2::DiffLine`: its origin
character (`'+'`, `'-'`, `' '`, ...) and its line numbers in the old and new
file (only the number relevant to the origin is consulted by the walk). -/
structure HunkLine where
  origin : Char
  oldNo : Nat
  newNo : Nat
deriving DecidableEq, Repr

/-- One diff hunk: its starting line and line count in the new file, and its
lines. -/
structure Hunk where
  newStart : Nat
  newLines : Nat
  lines : List HunkLine
deriving DecidableEq, Repr

/-- The line-level patch of one file: whether its delta status is `Untracked`,
and its hunks (in ascending `newStart` order, as produced by git). -/
structure Patch where
  untracked : Bool
  hunks : List Hunk
deriving DecidableEq, Repr

/-- A changed line that `is_range_modified` counts as in range `[r.1, r.2]`:
an added line whose new line number is in range, or a removed line whose old
line number is in range. -/
def lineHit (r : Nat × Nat) (l : HunkLine) : Bool :=
  (l.origin == '+' && decide (r.1 ≤ l.newNo) && decide (l.newNo ≤ r.2)) ||
    (l.origin == '-' && decide (r.1 ≤ l.oldNo) && decide (l.oldNo ≤ r.2))

/-- The hunk walk of `GitEngine::is_range_modified`: break once a hunk starts
(in the new file) beyond the end of the range, skip hunks ending before its
start, and otherwise look for an in-range changed line. -/
def scanHunks (r : Nat × Nat) : List Hunk → Bool
  | [] => false
  | h :: hs =>
    if r.2 < h.newStart then false
    else if h.newStart + h.newLines < r.1 then scanHunks r hs
    else if h.lines.any (lineHit r) then true
    else scanHunks r hs

/-- Mirror of `GitEngine::is_range_modified`, taking the file's patch (or
`none` when the diff has no patch for the path) as input: no patch means
unmodified, an `Untracked` delta is unconditionally modified, otherwise the
hunk walk decides. -/
def isRangeModified (patch? : Option Patch) (r : Nat × Nat) : Bool :=
  match patch? with
  | none => false
  | some p => if p.untracked then true else scanHunks r p.hunks

/-- Fuelled fnmatch-style glob matcher modelling the pattern matching libgit2
applies to pathspec entries: `*` matches any (possibly empty) sequence of
characters — including `/`, as pinned by the repository's `test_matches`
snapshot where pattern `*a` matches path `c/a` — `?` matches one character,
anything else matches itself.  Each step shrinks `p.length + s.length`, so
the fuel supplied by `globMatch` suffices. -/
def globMatchF : Nat → List Char → List Char → Bool
  | 0, _, _ => false
  | _ + 1, [], s => s.isEmpty
  | fuel + 1, p :: ps, s =>
    if p = '*' then
      globMatchF fuel ps s ||
        (match s with
         | [] => false
         | _ :: s' => globMatchF fuel (p :: ps) s')
    else
      match s with
      | [] => false
      | c :: s' => (p == '?' || p == c) && globMatchF fuel ps s'

/-- Whether glob pattern `p` matches path `s`. -/
def globMatch (p s : List Char) : Bool := globMatchF (p.length + s.length + 1) p s

/-- Whether a pathspec entry is negated (`!`-prefixed). -/
def isNegPat (p : List Char) : Bool :=
  match p with
  | '!' :: _ => true
  | _ => false

/-- The pattern text of a pathspec entry, its `!` prefix stripped (libgit2
stores and reports negated patterns without the prefix). -/
def patCore (p : List Char) : List Char :=
  match p with
  | '!' :: r => r
  | _ => p

/-- Whether a pathspec entry matches a path, ignoring its negation flag. -/
def patMatches (p path : List Char) : Bool := globMatch (patCore p) path

/-- The first entry of the pathspec that matches the path (first match wins;
the entry's negation flag then decides inclusion). -/
def firstMatch (pats : List (List Char)) (path : List Char) : Option (List Char) :=
  pats.find? fun p => patMatches p path

/-- Model of `Path::strip_prefix(MAIN_SEPARATOR_STR)`: a leading separator
anchors the pattern to the tree root instead of being matched literally. -/
def stripLeadingSep (p : List Char) : List Char :=
  match p with
  | '/' :: r => r
  | _ => p

/-- Mirror of `GitEngine::matches` over the list of changed paths of the diff
(in diff order).  Patterns are anchored and reversed (gitignore order: last
declared wins).  An empty pattern list yields every changed path.  Otherwise
every changed path whose first matching entry is positive is yielded as `ok`
(in diff order), and afterwards every entry that matched no changed path is
yielded as `error` carrying its text without any `!` prefix (libgit2's
`FIND_FAILURES`; an entry whose first-match was a changed path counts as used
even when it is negated and therefore excludes the path). -/
def matchesList (changed patterns : List (List Char)) : List (Except (List Char) (List Char)) :=
  let pats := (patterns.map stripLeadingSep).reverse
  if pats.isEmpty then changed.map .ok
  else
    let oks := changed.filterMap fun c =>
      match firstMatch pats c with
      | some p => if isNegPat p then none else some (Except.ok c)
      | none => none
    let fails := (pats.filter fun p => changed.all fun c => !(firstMatch pats c == some p)).map
      fun p => (Except.error (patCore p) : Except (List Char) (List Char))
    oks ++ fails

/-- Mirror of `split_patterns`: discard everything from the first `--` on
(the free-text justification), split the remainder on commas, trim each
piece. -/
def splitPatterns (value : List Char) : List (List Char) :=
  let v :=
    match findSubIdx? ("--".toList) value with
    | some i => value.take i
    | none => value
  (splitOnChar ',' v).map trim

/-- Mirror of `ignore_pathspec`, over the target revision (abstracted to
whether one was supplied) and the trailers of its commit message as parsed by
`git2::message_trailers_bytes`.  Keys are compared case-insensitively against
`ignore-if-changed`; the collected patterns are stored reversed (gitignore
order); an empty collection means no pathspec. -/
def ignorePathspec (toRef : Option Unit) (trailers : List (List Char × List Char)) :
    Option (List (List Char)) :=
  match toRef with
  | none => none
  | some _ =>
    let pats := (trailers.filter fun t => lowerAscii t.1 == "ignore-if-changed".toList).flatMap
      fun t => splitPatterns t.2
    if pats = [] then none else some pats.reverse

/-- Mirror of `GitEngine::is_ignored`: no pathspec means nothing is ignored;
otherwise first match wins and a negated winner is not a match. -/
def isIgnored (spec : Option (List (List Char))) (path : List Char) : Bool :=
  match spec with
  | none => false
  | some pats =>
    match firstMatch pats path with
    | some p => !isNegPat p
    | none => false

/-! ## The obligation checker (Engine::check in src/engine.rs) -/

/-- Model of `Path::parent` on relative file paths: everything before the last
separator (empty for a bare file name, as `Path::new("a.rs").parent()` is
`Some("")`). -/
def parentDir (p : List Char) : List Char :=
  match splitOnceChar '/' p.reverse with
  | some pr => pr.2.reverse
  | none => []

/-- Model of `Path::join` on the relative paths involved (joining onto the
empty parent yields the child unchanged). -/
def pathJoin (a b : List Char) : List Char := if a = [] then b else a ++ '/' :: b

/-- Insertion into a `BTreeMap` modelled as a sorted association list keyed by
byte-wise path order: an existing key has its value replaced. -/
def mapInsert {α : Type} (k : List Char) (v : α) :
    List (List Char × α) → List (List Char × α)
  | [] => [(k, v)]
  | (k', v') :: rest =>
    if k = k' then (k, v) :: rest
    else if lexLt k k' then (k, v) :: (k', v') :: rest
    else (k', v') :: mapInsert k v rest

/-- The state Engine::check queries: the file tree (path to lines of text),
the changed paths of the diff (in diff order), and the per-path line-level
patches.  `resolve` (joining the repository work-dir root) is the identity
here since files are keyed by their repository-relative paths. -/
structure World where
  files : List (List Char × List (List Char))
  changed : List (List Char)
  patches : List (List Char × Patch)

/-- Contents of a file in the tree, if present. -/
def World.fileOf (w : World) (p : List Char) : Option (List (List Char)) := w.files.lookup p

/-- The line-level patch of a path, if the diff has one. -/
def World.patchOf (w : World) (p : List Char) : Option Patch := w.patches.lookup p

/-- Mirror of the `parser.find_map(...)` search for a named block: the first
yielded item that is either an error or a block carrying the wanted name. -/
def findNamed (items : List (Except (List Msg) IfChangedBlock)) (nm : List Char) :
    Option (Except (List Msg) IfChangedBlock) :=
  items.findSome? fun it =>
    match it with
    | .ok b => if b.name = some nm then some (.ok b) else none
    | .error e => some (.error e)

/-- The violations produced for one named obligation (the body of the
`for (pattern, (name, line)) in named_patterns` loop of `Engine::check`). -/
def namedViolations (w : World) (file patv nm : List Char) (line : Nat) : List Msg :=
  (matchesList w.changed [patv]).flatMap fun r =>
    match r with
    | .error p => [.expectedModified p file line]
    | .ok dep =>
      match w.fileOf dep with
      | none => [.couldNotOpen dep file line]
      | some ls =>
        match findNamed (parseAll ls) nm with
        | none => [.couldNotFindName nm dep file line]
        | some (.error e) => e
        | some (.ok blk) =>
          if isRangeModified (w.patchOf dep) blk.range then []
          else [.expectedModified dep file line]

/-- The violations produced for one modified block of the checked file:
patterns are resolved against the file (an empty pattern denotes the file
itself, any other is joined onto its parent directory), deduplicated into the
two `BTreeMap`s, the unnamed ones checked by one batched `matches` call (every
failed pattern blames the line stored for it), the named ones checked one by
one in key order. -/
def checkBlock (w : World) (path : List Char) (b : IfChangedBlock) : List Msg :=
  let resolved := b.patterns.map fun p =>
    { p with value := if p.value = [] then path else pathJoin (parentDir path) p.value }
  let unnamed := resolved.foldl
    (fun m p =>
      match p.name with
      | none => mapInsert p.value p.line m
      | some _ => m)
    ([] : List (List Char × Nat))
  let named := resolved.foldl
    (fun m p =>
      match p.name with
      | some nm => mapInsert p.value (nm, p.line) m
      | none => m)
    ([] : List (List Char × (List Char × Nat)))
  let unnamedErrs := (matchesList w.changed (unnamed.map (·.1))).filterMap fun r =>
    match r with
    | .ok _ => none
    | .error pat => some (Msg.expectedModified pat path ((unnamed.lookup pat).getD 0))
  let namedErrs := named.flatMap fun kv => namedViolations w path kv.1 kv.2.1 kv.2.2
  unnamedErrs ++ namedErrs

/-- The block loop of `Engine::check`: the first parser error is returned
verbatim (discarding every violation accumulated so far), a block whose range
is not modified is skipped, and otherwise its violations are appended. -/
def checkGo (w : World) (path : List Char) :
    List (Except (List Msg) IfChangedBlock) → List Msg → Except (List Msg) Unit
  | [], acc => if acc = [] then .ok () else .error acc
  | .error e :: _, _ => .error e
  | .ok b :: rest, acc =>
    if isRangeModified (w.patchOf path) b.range then
      checkGo w path rest (acc ++ checkBlock w path b)
    else checkGo w path rest acc

/-- Mirror of `Engine::check` for one file path. -/
def check (w : World) (path : List Char) : Except (List Msg) Unit :=
  match w.fileOf path with
  | none => .error [.failedOpen path]
  | some ls => checkGo w path (parseAll ls) []

/-! ## Concrete data used by the theorems -/

/-- Shorthand turning a string literal into the `List Char` the model uses. -/
def txt (s : String) : List Char := s.toList

/-- A line that triggers neither marker: `parse_if_changed` fails to eat
`if-changed` after comment stripping, and the remaining text contains no
`then-change`.  Stated in terms of the exact tests the parser performs. -/
def Inert (l : List Char) : Prop :=
  stripLit ("if-changed".toList) (skipWs (skipComments l)) = none ∧
    findSubIdx? ("then-change".toList) (skipWs (skipComments l)) = none

instance (l : List Char) : Decidable (Inert l) := by unfold Inert; infer_instance

/-- Whether a message is of the distinct `Could not find any file matching`
kind. -/
def isCouldNotFindFile : Msg → Bool
  | .couldNotFindFile _ _ _ => true
  | _ => false

/-- A patch with a single hunk of added lines 10-12 in the new file (the
range-hunk boundary example of the specification). -/
def addPatch : Patch :=
  ⟨false, [⟨10, 3, [⟨'+', 0, 10⟩, ⟨'+', 0, 11⟩, ⟨'+', 0, 12⟩]⟩]⟩

/-- A patch with a single pure-deletion hunk: old lines 5-9 removed, so git
reports the hunk at `new_start = 4` with `new_lines = 0`. -/
def delPatch : Patch :=
  ⟨false, [⟨4, 0, [⟨'-', 5, 0⟩, ⟨'-', 6, 0⟩, ⟨'-', 7, 0⟩, ⟨'-', 8, 0⟩, ⟨'-', 9, 0⟩]⟩]⟩

/-- A patch modifying line 2 of a three-line file (one line replaced). -/
def line2Patch : Patch := ⟨false, [⟨2, 1, [⟨'-', 2, 0⟩, ⟨'+', 0, 2⟩]⟩]⟩

/-- The `test_check_fail` scenario of `src/engine.rs`: only `src/a.js` exists
and changed; its block requires `b.js`, which resolves to `src/b.js` — a path
matching no file in the tree at all. -/
def worldNoFile : World :=
  { files := [(txt "src/a.js",
      [txt "// if-changed", txt "foobar", txt "// then-change(b.js)"])],
    changed := [txt "src/a.js"],
    patches := [(txt "src/a.js", line2Patch)] }

/-- A world whose checked file accumulates a violation from its first block
(`b.js` unmatched) before a structural parser error (a second `then-change`
with no open block) aborts the parse. -/
def worldDropped : World :=
  { files := [(txt "a.js",
      [txt "// if-changed", txt "x", txt "// then-change(b.js)", txt "// then-change(c.js)"])],
    changed := [txt "a.js"],
    patches := [(txt "a.js", line2Patch)] }

/-! ## Helper lemmas -/

theorem dropWhile_append_all {p : Char → Bool} (xs ys : List Char)
    (h : ∀ c ∈ xs, p c = true) :
    List.dropWhile p (xs ++ ys) = List.dropWhile p ys := by
  induction xs with
  | nil => simp
  | cons a xs ih =>
    have ha := h a (List.mem_cons_self a xs)
    simp only [List.cons_append, List.dropWhile_cons, ha, if_true]
    exact ih fun c hc => h c (List.mem_cons_of_mem a hc)

theorem dropWhile_cons_false {p : Char → Bool} (a : Char) (xs : List Char)
    (h : p a = false) : List.dropWhile p (a :: xs) = a :: xs := by
  simp [List.dropWhile_cons, h]

theorem stripLit_append (p r : List Char) : stripLit p (p ++ r) = some r := by
  induction p with
  | nil => rfl
  | cons a p ih => simp [stripLit, ih]

theorem commentChar_not_ws (c : Char) (h : commentChar c = true) :
    c.isWhitespace = false := by
  have hm : c ∈ COMMENT_START_TOKENS := List.mem_of_elem_eq_true h
  fin_cases hm <;> rfl

theorem getLast?_cons_of_ne {α : Type} (x : α) (l : List α) (h : l ≠ []) :
    (x :: l).getLast? = l.getLast? := by
  cases l with
  | nil => exact absurd rfl h
  | cons y ys => simp [List.getLast?_cons_cons]

/-! ## Validation of the embedding against the repository's own test snapshots -/

/-- The `it_parses` snapshot of `src/parser.rs` (indentation elided into the
leading whitespace the test file carries). -/
theorem validate_it_parses :
    parseAll [txt "", txt "  // if-changed", txt "  const FOO: u32 = 0;",
      txt "  // then-change(foo.rs)", txt "", txt "  // if-changed(some-name)",
      txt "  const FOO: u32 = 0;", txt "  // then-change(foo.rs)"] =
    [Except.ok ⟨none, (2, 4), [⟨none, txt "foo.rs", 4⟩]⟩,
     Except.ok ⟨some (txt "some-name"), (6, 8), [⟨none, txt "foo.rs", 8⟩]⟩] := by
  simp [parseAll, parseRun, parseIfChanged, skipComments, skipWs, stripLit, findCharIdx?,
    findSubIdx?, findThenChange, parseThenChangePaths, ptcLines, scanLine, scanLineF,
    trim, trimEnd, splitOnceChar, startsWithL, commentChar, COMMENT_START_TOKENS, txt]

/-- The first sub-case of the `it_parses_multiple_paths_multiline` snapshot:
the block's range ends at the `then-change` marker line (4) while the two
patterns record the lines their text appears on (5 and 6). -/
theorem validate_parser_multiline :
    parseAll [txt "", txt "// if-changed", txt "const FOO: u32 = 0;", txt "// then-change(",
      txt "//   foo.rs,", txt "//   bar.rs,", txt "// )"] =
    [Except.ok ⟨none, (2, 4), [⟨none, txt "foo.rs", 5⟩, ⟨none, txt "bar.rs", 6⟩]⟩] := by
  simp [parseAll, parseRun, parseIfChanged, skipComments, skipWs, stripLit, findCharIdx?,
    findSubIdx?, findThenChange, parseThenChangePaths, ptcLines, scanLine, scanLineF,
    trim, trimEnd, splitOnceChar, startsWithL, commentChar, COMMENT_START_TOKENS, txt]

/-- The `test_matches` snapshots of `src/engine/git.rs` for the oracle model:
exact matches, root anchoring, `*` crossing `/`, and the negation case
`["c/*", "!c/b", "!c/c"]` where the matched negation `!c/b` is not a failure
but the unmatched `!c/c` is (reported without its `!`). -/
theorem validate_matches :
    matchesList [txt "a", txt "c/a", txt "c/b", txt "d/b"] [txt "b"] =
        [Except.error (txt "b")] ∧
    matchesList [txt "a", txt "c/a", txt "c/b", txt "d/b"] [txt "/a"] =
        [Except.ok (txt "a")] ∧
    matchesList [txt "a", txt "c/a", txt "c/b", txt "d/b"] [txt "*a"] =
        [Except.ok (txt "a"), Except.ok (txt "c/a")] ∧
    matchesList [txt "a", txt "c/a", txt "c/b", txt "d/b"] [txt "c/*", txt "!c/b", txt "!c/c"] =
        [Except.ok (txt "c/a"), Except.error (txt "c/c")] :=
  ⟨rfl, rfl, rfl, rfl⟩

/-- The `test_check_fail` snapshot of `src/engine.rs` reproduced by the checker
model on `worldNoFile`. -/
theorem validate_check_fail :
    check worldNoFile (txt "src/a.js") =
      Except.error [Msg.expectedModified (txt "src/b.js") (txt "src/a.js") 3] := by
  simp [check, checkGo, checkBlock, namedViolations, findNamed, World.fileOf, World.patchOf,
    worldNoFile, line2Patch, isRangeModified, scanHunks, lineHit, mapInsert, lexLt, pathJoin,
    parentDir, matchesList, globMatch, globMatchF, firstMatch, patMatches, patCore, isNegPat,
    stripLeadingSep, parseAll, parseRun, parseIfChanged, skipComments, skipWs, stripLit,
    findCharIdx?, findSubIdx?, findThenChange, parseThenChangePaths, ptcLines, scanLine,
    scanLineF, trim, trimEnd, splitOnceChar, startsWithL, commentChar, COMMENT_START_TOKENS,
    txt, List.lookup]

/-! ## Claim C2 -/

/-- Claim C2 is false: for patterns `["src/*", "!src/b.ts"]` and changed paths
`{src/a.ts, src/b.ts}`, `matches` yields only `Ok("src/a.ts")` — the negated
pattern `!src/b.ts` matched the changed path `src/b.ts` (thereby excluding
it), so it is a used pattern and no `Err("src/b.ts")` is reported, exactly as
in the repository's own `test_matches` snapshot for `["c/*","!c/b","!c/c"]`. -/
theorem c2_counterexample :
    matchesList [txt "src/a.ts", txt "src/b.ts"] [txt "src/*", txt "!src/b.ts"] =
        [Except.ok (txt "src/a.ts")] ∧
    Except.error (txt "src/b.ts") ∉
      matchesList [txt "src/a.ts", txt "src/b.ts"] [txt "src/*", txt "!src/b.ts"] := by
  refine ⟨rfl, ?_⟩
  intro hmem
  rw [show matchesList [txt "src/a.ts", txt "src/b.ts"] [txt "src/*", txt "!src/b.ts"] =
      [Except.ok (txt "src/a.ts")] from rfl] at hmem
  simp [txt] at hmem

/-- Amended C2: `match` yields `Ok("src/a.ts")` and nothing else; a negated
pattern that matched a changed path counts as matched and is not reported,
while a pattern (negated or not) matching no changed path is reported as
unmatched, with its `!` stripped — as `!src/c.ts` is in the second part. -/
theorem c2_amended :
    matchesList [txt "src/a.ts", txt "src/b.ts"] [txt "src/*", txt "!src/b.ts"] =
        [Except.ok (txt "src/a.ts")] ∧
    matchesList [txt "src/a.ts", txt "src/b.ts"] [txt "src/*", txt "!src/c.ts"] =
        [Except.ok (txt "src/a.ts"), Except.ok (txt "src/b.ts"),
         Except.error (txt "src/c.ts")] :=
  ⟨rfl, rfl⟩

/-! ## Claim C3 -/

/-- Claim C3 is false: `then-change(foo\,bar.rs)` parses to the two
obligations `foo` and `bar.rs`, not to the single pattern `foo,bar.rs`.  The
backslash only flushes the buffer and resumes scanning the same line, where
the comma then acts as an ordinary delimiter. -/
theorem c3_counterexample :
    parseAll [txt "// if-changed", txt "x", txt "// then-change(foo\\,bar.rs)"] =
        [Except.ok ⟨none, (1, 3), [⟨none, txt "foo", 3⟩, ⟨none, txt "bar.rs", 3⟩]⟩] ∧
    parseAll [txt "// if-changed", txt "x", txt "// then-change(foo\\,bar.rs)"] ≠
        [Except.ok ⟨none, (1, 3), [⟨none, txt "foo,bar.rs", 3⟩]⟩] := by
  constructor
  · simp [parseAll, parseRun, parseIfChanged, skipComments, skipWs, stripLit, findCharIdx?,
      findSubIdx?, findThenChange, parseThenChangePaths, ptcLines, scanLine, scanLineF,
      trim, trimEnd, splitOnceChar, startsWithL, commentChar, COMMENT_START_TOKENS, txt]
  · simp [parseAll, parseRun, parseIfChanged, skipComments, skipWs, stripLit, findCharIdx?,
      findSubIdx?, findThenChange, parseThenChangePaths, ptcLines, scanLine, scanLineF,
      trim, trimEnd, splitOnceChar, startsWithL, commentChar, COMMENT_START_TOKENS, txt]

/-- Amended C3: the backslash flushes the trimmed buffer and resumes scanning
the rest of the same physical line, where the next delimiter applies as usual
(so `foo\,bar.rs` yields the two patterns `foo` and `bar.rs`); its actual role
is line continuation: a backslash at end of line joins the next line's content
into the same pattern, so `then-change(foo\` followed by `bar.rs)` yields the
single pattern `foobar.rs`. -/
theorem c3_amended :
    parseAll [txt "// if-changed", txt "x", txt "// then-change(foo\\,bar.rs)"] =
        [Except.ok ⟨none, (1, 3), [⟨none, txt "foo", 3⟩, ⟨none, txt "bar.rs", 3⟩]⟩] ∧
    parseAll [txt "// if-changed", txt "x", txt "// then-change(foo\\", txt "// bar.rs)"] =
        [Except.ok ⟨none, (1, 3), [⟨none, txt "foobar.rs", 3⟩]⟩] := by
  constructor
  · exact c3_counterexample.1
  · simp [parseAll, parseRun, parseIfChanged, skipComments, skipWs, stripLit, findCharIdx?,
      findSubIdx?, findThenChange, parseThenChangePaths, ptcLines, scanLine, scanLineF,
      trim, trimEnd, splitOnceChar, startsWithL, commentChar, COMMENT_START_TOKENS, txt]

/-! ## Claim C4 -/

/-- Claim C4 is false: in a multi-line pattern list opened by a `then-change`
marker on line 3, the obligations record lines 4 and 5 — the physical lines
their pattern text appears on — not the marker line 3 the claim predicts (the
marker line is recorded as the block's range end instead). -/
theorem c4_counterexample :
    parseAll [txt "// if-changed", txt "x", txt "// then-change(",
        txt "// a.rs,", txt "// b.rs,", txt "// )"] =
      [Except.ok ⟨none, (1, 3), [⟨none, txt "a.rs", 4⟩, ⟨none, txt "b.rs", 5⟩]⟩] ∧
    parseAll [txt "// if-changed", txt "x", txt "// then-change(",
        txt "// a.rs,", txt "// b.rs,", txt "// )"] ≠
      [Except.ok ⟨none, (1, 3), [⟨none, txt "a.rs", 3⟩, ⟨none, txt "b.rs", 3⟩]⟩] := by
  constructor
  · simp [parseAll, parseRun, parseIfChanged, skipComments, skipWs, stripLit, findCharIdx?,
      findSubIdx?, findThenChange, parseThenChangePaths, ptcLines, scanLine, scanLineF,
      trim, trimEnd, splitOnceChar, startsWithL, commentChar, COMMENT_START_TOKENS, txt]
  · simp [parseAll, parseRun, parseIfChanged, skipComments, skipWs, stripLit, findCharIdx?,
      findSubIdx?, findThenChange, parseThenChangePaths, ptcLines, scanLine, scanLineF,
      trim, trimEnd, splitOnceChar, startsWithL, commentChar, COMMENT_START_TOKENS, txt]

/-- Amended C4: an obligation's recorded line is the physical line its pattern
text begins on (which coincides with the marker line only for inline lists);
the line captured before the argument list is parsed is the `then-change`
marker line, recorded as the block's range end.  Appending a new pattern to a
multi-line list changes neither the `(value, line)` of the existing
obligations nor the block's range. -/
theorem c4_amended :
    parseAll [txt "// if-changed", txt "x", txt "// then-change(",
        txt "// a.rs,", txt "// b.rs,", txt "// )"] =
      [Except.ok ⟨none, (1, 3), [⟨none, txt "a.rs", 4⟩, ⟨none, txt "b.rs", 5⟩]⟩] ∧
    parseAll [txt "// if-changed", txt "x", txt "// then-change(",
        txt "// a.rs,", txt "// b.rs,", txt "// c.rs,", txt "// )"] =
      [Except.ok ⟨none, (1, 3),
        [⟨none, txt "a.rs", 4⟩, ⟨none, txt "b.rs", 5⟩, ⟨none, txt "c.rs", 6⟩]⟩] := by
  constructor
  · exact c4_counterexample.1
  · simp [parseAll, parseRun, parseIfChanged, skipComments, skipWs, stripLit, findCharIdx?,
      findSubIdx?, findThenChange, parseThenChangePaths, ptcLines, scanLine, scanLineF,
      trim, trimEnd, splitOnceChar, startsWithL, commentChar, COMMENT_START_TOKENS, txt]

/-! ## Claim C5 -/

/-- Claim C5 is false as an iff: for a pure-deletion hunk reported by git at
`new_start = 4, new_lines = 0` with removed old lines 5-9, the walk skips the
hunk (its new-file end `4` is below the range start `6`) and returns `false`
for range `(6, 9)`, although the hunk contains removed lines whose old line
numbers 6-9 lie in the range. -/
theorem c5_counterexample :
    isRangeModified (some delPatch) (6, 9) = false ∧
    delPatch.untracked = false ∧
    delPatch.hunks.any (fun h => h.lines.any (lineHit (6, 9))) = true :=
  ⟨rfl, rfl, rfl⟩

/-- Amended C5: an untracked file is modified for every range; otherwise the
walk returns true exactly when some hunk is reached without the early break
(every hunk up to it starts at or before the range end), is not skipped (its
new-file extent reaches the range start), and contains an in-range added or
removed line; the specification's boundary example holds: a hunk of new lines
10-12 makes range `(12, 20)` modified and `(1, 9)` not. -/
theorem c5_amended :
    (∀ (hunks : List Hunk) (r : Nat × Nat),
      isRangeModified (some ⟨true, hunks⟩) r = true) ∧
    (∀ (r : Nat × Nat) (hunks : List Hunk),
      scanHunks r hunks = true ↔
        ∃ pre h post, hunks = pre ++ h :: post ∧
          (∀ g ∈ pre, g.newStart ≤ r.2) ∧ h.newStart ≤ r.2 ∧
          r.1 ≤ h.newStart + h.newLines ∧ h.lines.any (lineHit r) = true) ∧
    isRangeModified (some addPatch) (12, 20) = true ∧
    isRangeModified (some addPatch) (1, 9) = false := by
  refine ⟨fun hunks r => rfl, fun r hunks => ?_, rfl, rfl⟩
  constructor
  · intro hscan
    induction hunks with
    | nil => simp [scanHunks] at hscan
    | cons h hs ih =>
      simp only [scanHunks] at hscan
      by_cases hbr : r.2 < h.newStart
      · simp [hbr] at hscan
      · by_cases hsk : h.newStart + h.newLines < r.1
        · simp [hbr, hsk] at hscan
          obtain ⟨pre, g, post, hsplit, hpre, hg1, hg2, hhit⟩ := ih hscan
          exact ⟨h :: pre, g, post, by simp [hsplit],
            by intro x hx; rcases List.mem_cons.mp hx with hx | hx
               · exact hx ▸ Nat.le_of_not_lt hbr
               · exact hpre x hx,
            hg1, hg2, hhit⟩
        · by_cases hhit : h.lines.any (lineHit r) = true
          · exact ⟨[], h, hs, rfl, by simp, Nat.le_of_not_lt hbr, Nat.le_of_not_lt hsk, hhit⟩
          · simp [hbr, hsk, hhit] at hscan
            obtain ⟨pre, g, post, hsplit, hpre, hg1, hg2, hhit'⟩ := ih hscan
            exact ⟨h :: pre, g, post, by simp [hsplit],
              by intro x hx; rcases List.mem_cons.mp hx with hx | hx
                 · exact hx ▸ Nat.le_of_not_lt hbr
                 · exact hpre x hx,
              hg1, hg2, hhit'⟩
  · rintro ⟨pre, h, post, hsplit, hpre, hg1, hg2, hhit⟩
    subst hsplit
    induction pre with
    | nil =>
      simp only [scanHunks]
      simp [Nat.not_lt_of_le hg1, Nat.not_lt_of_le hg2, hhit]
    | cons g pre' ih =>
      have hgle : g.newStart ≤ r.2 := hpre g (List.mem_cons_self g _)
      have hpre' : ∀ x ∈ pre', x.newStart ≤ r.2 := fun x hx =>
        hpre x (List.mem_cons_of_mem g hx)
      rw [List.cons_append]
      simp only [scanHunks]
      simp only [Nat.not_lt_of_le hgle, if_false]
      by_cases hsk : g.newStart + g.newLines < r.1
      · simp only [hsk, if_true]
        exact ih hpre'
      · simp only [hsk, if_false]
        by_cases hany : g.lines.any (lineHit r) = true
        · simp [hany]
        · simp only [hany, if_false]
          · exact ih hpre'

/-! ## Claim C8 -/

/-- Claim C8: with no target revision (or no trailer whose key equals
`ignore-if-changed` case-insensitively) nothing is exempt; the trailer key is
compared case-insensitively; the trailer value is split on commas with an
optional `--` suffix discarded — exactly as in the repository's
`split_patterns` snapshots — and a matching pattern then exempts the path. -/
theorem c8_theorem :
    (∀ (trailers : List (List Char × List Char)) (path : List Char),
        isIgnored (ignorePathspec none trailers) path = false) ∧
    (∀ (u : Unit) (trailers : List (List Char × List Char)) (path : List Char),
        (∀ t ∈ trailers, lowerAscii t.1 ≠ txt "ignore-if-changed") →
        isIgnored (ignorePathspec (some u) trailers) path = false) ∧
    (∀ (u : Unit) (k k' v : List Char) (ts : List (List Char × List Char)),
        lowerAscii k = lowerAscii k' →
        ignorePathspec (some u) ((k, v) :: ts) = ignorePathspec (some u) ((k', v) :: ts)) ∧
    splitPatterns (txt "a/b, b/c -- Hello world!") = [txt "a/b", txt "b/c"] ∧
    splitPatterns (txt "a/b, b/c") = [txt "a/b", txt "b/c"] ∧
    isIgnored (ignorePathspec (some ())
        [(txt "Ignore-If-Changed", txt "c/a, d/b -- needed for release")]) (txt "c/a") = true := by
  refine ⟨fun _ _ => rfl, ?_, ?_, rfl, rfl, rfl⟩
  · intro u trailers path h
    have hf : trailers.filter (fun t => lowerAscii t.1 == "ignore-if-changed".toList) = [] := by
      rw [List.filter_eq_nil_iff]
      intro t ht
      simpa using h t ht
    simp only [ignorePathspec, hf]
    rfl
  · intro u k k' v ts h
    simp only [ignorePathspec]
    generalize "ignore-if-changed".toList = tgt
    have key : (((k, v) :: ts).filter fun t => lowerAscii t.1 == tgt).flatMap
          (fun t => splitPatterns t.2) =
        (((k', v) :: ts).filter fun t => lowerAscii t.1 == tgt).flatMap
          (fun t => splitPatterns t.2) := by
      simp only [List.filter_cons, h]
      by_cases hc : (lowerAscii k' == tgt) = true
      · simp [hc]
      · simp [hc]
    rw [key]

/-- Witness for `c8_theorem` at concrete inputs. -/
theorem c8_witness :
    isIgnored (ignorePathspec none [(txt "ignore-if-changed", txt "c/a")]) (txt "c/a") = false ∧
    isIgnored (ignorePathspec (some ()) [(txt "subject", txt "x")]) (txt "c/a") = false ∧
    ignorePathspec (some ()) [(txt "Ignore-If-Changed", txt "c/a")] =
      ignorePathspec (some ()) [(txt "ignore-if-changed", txt "c/a")] :=
  ⟨c8_theorem.1 _ _, c8_theorem.2.1 () _ _ (by decide), c8_theorem.2.2.1 () _ _ _ _ (by decide)⟩

/-! ## Claim C10 -/

theorem skipWsComments_if (ws toks tail0 : List Char)
    (hws : ∀ c ∈ ws, c.isWhitespace = true) (htok : ∀ c ∈ toks, commentChar c = true) :
    skipWs (skipComments (ws ++ (toks ++ ("if-changed".toList ++ tail0)))) =
      "if-changed".toList ++ tail0 := by
  have e : "if-changed".toList ++ tail0 = 'i' :: ("f-changed".toList ++ tail0) := rfl
  unfold skipComments skipWs
  rw [dropWhile_append_all ws _ hws]
  have h1 : List.dropWhile Char.isWhitespace (toks ++ ("if-changed".toList ++ tail0)) =
      toks ++ ("if-changed".toList ++ tail0) := by
    cases toks with
    | nil => rw [List.nil_append, e]; exact dropWhile_cons_false 'i' _ (by rfl)
    | cons t ts =>
      exact dropWhile_cons_false t _ (commentChar_not_ws t (htok t (List.mem_cons_self t ts)))
  rw [h1, dropWhile_append_all toks _ htok, e,
    dropWhile_cons_false 'i' _ (by rfl), dropWhile_cons_false 'i' _ (by rfl)]

theorem parseIfChanged_plain (n : Nat) (ws toks tail0 : List Char)
    (hws : ∀ c ∈ ws, c.isWhitespace = true) (htok : ∀ c ∈ toks, commentChar c = true)
    (hparen : stripLit ['('] (skipWs tail0) = none) :
    parseIfChanged n (ws ++ (toks ++ ("if-changed".toList ++ tail0))) =
      .marker none (skipWs tail0) := by
  simp only [parseIfChanged, skipWsComments_if ws toks tail0 hws htok, stripLit_append, hparen]

theorem parseRun_plain_marker (n : Nat) (rest : List (List Char))
    (blocks : List IfChangedBlock) (ws toks tail0 : List Char)
    (hws : ∀ c ∈ ws, c.isWhitespace = true) (htok : ∀ c ∈ toks, commentChar c = true)
    (hparen : stripLit ['('] (skipWs tail0) = none)
    (htc : findSubIdx? ("then-change".toList) (skipWs tail0) = none) :
    parseRun n ((ws ++ (toks ++ ("if-changed".toList ++ tail0))) :: rest) blocks =
      parseRun (n + 1) rest (⟨none, (n + 1, 0), []⟩ :: blocks) := by
  simp only [parseRun, parseIfChanged_plain (n + 1) ws toks tail0 hws htok hparen,
    findThenChange, htc, Option.map_none']

/-- Claim C10: no comment delimiter is required by the parser.  Any line made
of leading whitespace, then any run of the individual comment-start
characters, then the literal `if-changed` opens a block (stated with the text
after the marker constrained not to start a parenthesized name and not to
contain a `then-change`, which would additionally close the block on the same
line); and `then-change` is recognized anywhere in a line, so both markers
trigger in plain non-comment text, as the concrete run shows. -/
theorem c10_theorem :
    (∀ (ws toks tail0 : List Char) (n : Nat) (rest : List (List Char))
        (blocks : List IfChangedBlock),
      (∀ c ∈ ws, c.isWhitespace = true) → (∀ c ∈ toks, commentChar c = true) →
      stripLit ['('] (skipWs tail0) = none →
      findSubIdx? ("then-change".toList) (skipWs tail0) = none →
      parseRun n ((ws ++ (toks ++ ("if-changed".toList ++ tail0))) :: rest) blocks =
        parseRun (n + 1) rest (⟨none, (n + 1, 0), []⟩ :: blocks)) ∧
    parseAll [txt "if-changed", txt "x", txt "blah blah then-change(a.rs) tail"] =
      [Except.ok ⟨none, (1, 3), [⟨none, txt "a.rs", 3⟩]⟩] := by
  constructor
  · intro ws toks tail0 n rest blocks hws htok hparen htc
    exact parseRun_plain_marker n rest blocks ws toks tail0 hws htok hparen htc
  · simp [parseAll, parseRun, parseIfChanged, skipComments, skipWs, stripLit, findCharIdx?,
      findSubIdx?, findThenChange, parseThenChangePaths, ptcLines, scanLine, scanLineF,
      trim, trimEnd, splitOnceChar, startsWithL, commentChar, COMMENT_START_TOKENS, txt]

/-- Witness for `c10_theorem` at a concrete whitespace-and-token prefix. -/
theorem c10_witness :
    parseRun 0 [txt "  " ++ (txt "#<!--" ++ ("if-changed".toList ++ txt " stuff"))] [] =
      parseRun 1 [] [⟨none, (1, 0), []⟩] :=
  c10_theorem.1 (txt "  ") (txt "#<!--") (txt " stuff") 0 [] []
    (by decide) (by decide) (by decide) (by decide)

/-! ## Claim C6 -/

theorem parseRun_inert (l : List Char) (h : Inert l) (n : Nat) (rest : List (List Char))
    (blocks : List IfChangedBlock) :
    parseRun n (l :: rest) blocks = parseRun (n + 1) rest blocks := by
  obtain ⟨h1, h2⟩ := h
  have hifc : parseIfChanged (n + 1) l = .noMarker (skipWs (skipComments l)) := by
    simp only [parseIfChanged, h1]
  simp only [parseRun, hifc, findThenChange, h2, Option.map_none']

theorem parseRun_inert_append (m : List (List Char)) (h : ∀ l ∈ m, Inert l) (n : Nat)
    (rest : List (List Char)) (blocks : List IfChangedBlock) :
    parseRun n (m ++ rest) blocks = parseRun (n + m.length) rest blocks := by
  induction m generalizing n with
  | nil => simp
  | cons l m ih =>
    rw [List.cons_append, parseRun_inert l (h l (List.mem_cons_self l m)),
      ih (fun x hx => h x (List.mem_cons_of_mem l hx)) (n + 1)]
    congr 1
    simp
    omega

theorem parseRun_step_ifc (n : Nat) (rest : List (List Char)) (blocks : List IfChangedBlock) :
    parseRun n (txt "// if-changed" :: rest) blocks =
      parseRun (n + 1) rest (⟨none, (n + 1, 0), []⟩ :: blocks) := by
  have hifc : parseIfChanged (n + 1) (txt "// if-changed") = .marker none [] := by
    simp [parseIfChanged, skipComments, skipWs, stripLit, findCharIdx?, startsWithL,
      commentChar, COMMENT_START_TOKENS, txt]
  simp only [parseRun, hifc]
  rfl

theorem parseRun_step_tc_a (n : Nat) (rest : List (List Char)) (b : IfChangedBlock)
    (bs : List IfChangedBlock) :
    parseRun n (txt "// then-change(a.rs)" :: rest) (b :: bs) =
      ((Except.ok ⟨b.name, (b.range.1, n + 1), [⟨none, txt "a.rs", n + 1⟩]⟩) ::
          (parseRun (n + 1) rest bs).1,
        (parseRun (n + 1) rest bs).2) := by
  have hifc : parseIfChanged (n + 1) (txt "// then-change(a.rs)") =
      .noMarker (txt "then-change(a.rs)") := by
    simp [parseIfChanged, skipComments, skipWs, stripLit, findCharIdx?, startsWithL,
      commentChar, COMMENT_START_TOKENS, txt]
  have htc : findThenChange (txt "then-change(a.rs)") = some (txt "(a.rs)") := by
    simp [findThenChange, findSubIdx?, startsWithL, stripLit, txt]
  have hptc : parseThenChangePaths (n + 1) (txt "(a.rs)") rest =
      .ok [⟨none, txt "a.rs", n + 1⟩] 0 := by
    simp [parseThenChangePaths, ptcLines, scanLine, scanLineF, skipWs, stripLit,
      findCharIdx?, splitOnceChar, trim, trimEnd, txt]
  simp only [parseRun, hifc, htc, hptc]
  simp

theorem parseRun_step_tc_b (n : Nat) (rest : List (List Char)) (b : IfChangedBlock)
    (bs : List IfChangedBlock) :
    parseRun n (txt "// then-change(b.rs)" :: rest) (b :: bs) =
      ((Except.ok ⟨b.name, (b.range.1, n + 1), [⟨none, txt "b.rs", n + 1⟩]⟩) ::
          (parseRun (n + 1) rest bs).1,
        (parseRun (n + 1) rest bs).2) := by
  have hifc : parseIfChanged (n + 1) (txt "// then-change(b.rs)") =
      .noMarker (txt "then-change(b.rs)") := by
    simp [parseIfChanged, skipComments, skipWs, stripLit, findCharIdx?, startsWithL,
      commentChar, COMMENT_START_TOKENS, txt]
  have htc : findThenChange (txt "then-change(b.rs)") = some (txt "(b.rs)") := by
    simp [findThenChange, findSubIdx?, startsWithL, stripLit, txt]
  have hptc : parseThenChangePaths (n + 1) (txt "(b.rs)") rest =
      .ok [⟨none, txt "b.rs", n + 1⟩] 0 := by
    simp [parseThenChangePaths, ptcLines, scanLine, scanLineF, skipWs, stripLit,
      findCharIdx?, splitOnceChar, trim, trimEnd, txt]
  simp only [parseRun, hifc, htc, hptc]
  simp

/-- Claim C6: with two `if-changed` markers separated and followed by
arbitrary marker-free lines, the first `then-change` closes the more recently
opened block: the parser yields the second-opened block first, its range
running from the second `if-changed` line to the first `then-change` line,
and then the first-opened block, closed by the second `then-change`. -/
theorem c6_theorem (m1 m2 : List (List Char)) (h1 : ∀ l ∈ m1, Inert l)
    (h2 : ∀ l ∈ m2, Inert l) :
    parseAll (txt "// if-changed" :: m1 ++ txt "// if-changed" :: m2 ++
        [txt "// then-change(a.rs)", txt "// then-change(b.rs)"]) =
      [Except.ok ⟨none, (m1.length + 2, m1.length + m2.length + 3),
          [⟨none, txt "a.rs", m1.length + m2.length + 3⟩]⟩,
       Except.ok ⟨none, (1, m1.length + m2.length + 4),
          [⟨none, txt "b.rs", m1.length + m2.length + 4⟩]⟩] := by
  unfold parseAll
  simp only [List.cons_append, List.append_assoc]
  rw [parseRun_step_ifc, parseRun_inert_append m1 h1, parseRun_step_ifc,
    parseRun_inert_append m2 h2, parseRun_step_tc_a, parseRun_step_tc_b]
  rw [show (0 + 1 + m1.length + 1 + m2.length + 1 + 1 : Nat) = m1.length + m2.length + 4 from
      by omega,
    show (0 + 1 + m1.length + 1 + m2.length + 1 : Nat) = m1.length + m2.length + 3 from by omega,
    show (0 + 1 + m1.length + 1 : Nat) = m1.length + 2 from by omega]
  simp [parseRun]

/-- Witness for `c6_theorem` with one marker-free line between the markers. -/
theorem c6_witness :
    parseAll [txt "// if-changed", txt "x", txt "// if-changed", txt "y",
        txt "// then-change(a.rs)", txt "// then-change(b.rs)"] =
      [Except.ok ⟨none, (3, 5), [⟨none, txt "a.rs", 5⟩]⟩,
       Except.ok ⟨none, (1, 6), [⟨none, txt "b.rs", 6⟩]⟩] := by
  have h := c6_theorem [txt "x"] [txt "y"] (by decide) (by decide)
  simpa using h

/-! ## Claim C7: parser-run invariants -/

theorem parseRun_snd_open (n : Nat) (rest : List (List Char)) (blocks : List IfChangedBlock) :
    (∀ b ∈ blocks, b.range.2 = 0) → ∀ b ∈ (parseRun n rest blocks).2, b.range.2 = 0 := by
  induction n, rest, blocks using parseRun.induct with
  | case1 n blocks =>
    intro hop
    simpa [parseRun] using hop
  | case2 n blocks l rest' m e heq ih =>
    intro hop
    simp only [parseRun, heq]
    exact ih hop
  | case3 n blocks l rest' m hne st hfind ih =>
    intro hop
    cases hout : parseIfChanged m l with
    | err e0 => exact absurd hout (by intro h; exact hne e0 h)
    | noMarker c =>
      have hst : st = (blocks, c) := by unfold st; rw [hout]
      rw [hst] at hfind ih
      simp only [parseRun, hout, hfind]
      exact ih hop
    | marker nm c =>
      have hst : st = (⟨nm, (m, 0), []⟩ :: blocks, c) := by unfold st; rw [hout]
      rw [hst] at hfind ih
      simp only [parseRun, hout, hfind]
      refine ih ?_
      intro b hb
      rcases List.mem_cons.mp hb with hb | hb
      · subst hb; rfl
      · exact hop b hb
  | case4 n blocks l rest' m c2 msgs k hptc hne st hfind hnil ih =>
    intro hop
    cases hout : parseIfChanged m l with
    | err e0 => exact absurd hout (by intro h; exact hne e0 h)
    | noMarker c =>
      have hst : st = (blocks, c) := by unfold st; rw [hout]
      rw [hst] at hfind hnil
      simp only at hnil
      subst hnil
      simp only [parseRun, hout, hfind, hptc]
      exact ih (by intro b hb; cases hb)
    | marker nm c =>
      have hst : st = (⟨nm, (m, 0), []⟩ :: blocks, c) := by unfold st; rw [hout]
      rw [hst] at hnil
      simp at hnil
  | case5 n blocks l rest' m c2 msgs k hptc hd bs hne st hfind hcons ih =>
    intro hop
    cases hout : parseIfChanged m l with
    | err e0 => exact absurd hout (by intro h; exact hne e0 h)
    | noMarker c =>
      have hst : st = (blocks, c) := by unfold st; rw [hout]
      rw [hst] at hfind hcons
      simp only at hcons
      subst hcons
      simp only [parseRun, hout, hfind, hptc]
      exact ih (by intro b hb; exact hop b (List.mem_cons_of_mem hd hb))
    | marker nm c =>
      have hst : st = (⟨nm, (m, 0), []⟩ :: blocks, c) := by unfold st; rw [hout]
      rw [hst] at hfind hcons
      simp only at hcons
      obtain ⟨hhd, hbs⟩ := List.cons.inj hcons
      subst hbs
      simp only [parseRun, hout, hfind, hptc]
      exact ih hop
  | case6 n blocks l rest' m c2 pats k hptc hne st hfind hnil ih =>
    intro hop
    cases hout : parseIfChanged m l with
    | err e0 => exact absurd hout (by intro h; exact hne e0 h)
    | noMarker c =>
      have hst : st = (blocks, c) := by unfold st; rw [hout]
      rw [hst] at hfind hnil
      simp only at hnil
      subst hnil
      simp only [parseRun, hout, hfind, hptc]
      exact ih (by intro b hb; cases hb)
    | marker nm c =>
      have hst : st = (⟨nm, (m, 0), []⟩ :: blocks, c) := by unfold st; rw [hout]
      rw [hst] at hnil
      simp at hnil
  | case7 n blocks l rest' m c2 pats k hptc hd bs hne st hfind hcons ih =>
    intro hop
    cases hout : parseIfChanged m l with
    | err e0 => exact absurd hout (by intro h; exact hne e0 h)
    | noMarker c =>
      have hst : st = (blocks, c) := by unfold st; rw [hout]
      rw [hst] at hfind hcons
      simp only at hcons
      subst hcons
      simp only [parseRun, hout, hfind, hptc]
      exact ih (by intro b hb; exact hop b (List.mem_cons_of_mem hd hb))
    | marker nm c =>
      have hst : st = (⟨nm, (m, 0), []⟩ :: blocks, c) := by unfold st; rw [hout]
      rw [hst] at hfind hcons
      simp only at hcons
      obtain ⟨hhd, hbs⟩ := List.cons.inj hcons
      subst hbs
      simp only [parseRun, hout, hfind, hptc]
      exact ih hop



theorem parseRun_fst_ne (n : Nat) (rest : List (List Char)) (blocks : List IfChangedBlock) :
    (parseRun n rest blocks).2 ≠ [] → (parseRun n rest blocks).1 ≠ [] := by
  induction n, rest, blocks using parseRun.induct with
  | case1 n blocks =>
    intro h2
    simp only [parseRun] at h2 ⊢
    intro h1
    rw [if_neg h2] at h1
    cases h1
  | case2 n blocks l rest' m e heq ih =>
    intro h2
    simp only [parseRun, heq]
    simp
  | case3 n blocks l rest' m hne st hfind ih =>
    intro h2
    cases hout : parseIfChanged m l with
    | err e0 => exact absurd hout (by intro h; exact hne e0 h)
    | noMarker c =>
      have hst : st = (blocks, c) := by unfold st; rw [hout]
      rw [hst] at hfind ih
      simp only [parseRun, hout, hfind] at h2 ⊢
      exact ih h2
    | marker nm c =>
      have hst : st = (⟨nm, (m, 0), []⟩ :: blocks, c) := by unfold st; rw [hout]
      rw [hst] at hfind ih
      simp only [parseRun, hout, hfind] at h2 ⊢
      exact ih h2
  | case4 n blocks l rest' m c2 msgs k hptc hne st hfind hnil ih =>
    intro h2
    cases hout : parseIfChanged m l with
    | err e0 => exact absurd hout (by intro h; exact hne e0 h)
    | noMarker c =>
      have hst : st = (blocks, c) := by unfold st; rw [hout]
      rw [hst] at hfind hnil
      simp only at hnil
      subst hnil
      simp only [parseRun, hout, hfind, hptc]
      simp
    | marker nm c =>
      have hst : st = (⟨nm, (m, 0), []⟩ :: blocks, c) := by unfold st; rw [hout]
      rw [hst] at hnil
      simp at hnil
  | case5 n blocks l rest' m c2 msgs k hptc hd bs hne st hfind hcons ih =>
    intro h2
    cases hout : parseIfChanged m l with
    | err e0 => exact absurd hout (by intro h; exact hne e0 h)
    | noMarker c =>
      have hst : st = (blocks, c) := by unfold st; rw [hout]
      rw [hst] at hfind hcons
      simp only at hcons
      subst hcons
      simp only [parseRun, hout, hfind, hptc]
      simp
    | marker nm c =>
      have hst : st = (⟨nm, (m, 0), []⟩ :: blocks, c) := by unfold st; rw [hout]
      rw [hst] at hfind hcons
      simp only at hcons
      obtain ⟨hhd, hbs⟩ := List.cons.inj hcons
      subst hbs
      simp only [parseRun, hout, hfind, hptc]
      simp
  | case6 n blocks l rest' m c2 pats k hptc hne st hfind hnil ih =>
    intro h2
    cases hout : parseIfChanged m l with
    | err e0 => exact absurd hout (by intro h; exact hne e0 h)
    | noMarker c =>
      have hst : st = (blocks, c) := by unfold st; rw [hout]
      rw [hst] at hfind hnil
      simp only at hnil
      subst hnil
      simp only [parseRun, hout, hfind, hptc]
      simp
    | marker nm c =>
      have hst : st = (⟨nm, (m, 0), []⟩ :: blocks, c) := by unfold st; rw [hout]
      rw [hst] at hnil
      simp at hnil
  | case7 n blocks l rest' m c2 pats k hptc hd bs hne st hfind hcons ih =>
    intro h2
    cases hout : parseIfChanged m l with
    | err e0 => exact absurd hout (by intro h; exact hne e0 h)
    | noMarker c =>
      have hst : st = (blocks, c) := by unfold st; rw [hout]
      rw [hst] at hfind hcons
      simp only at hcons
      subst hcons
      simp only [parseRun, hout, hfind, hptc]
      simp
    | marker nm c =>
      have hst : st = (⟨nm, (m, 0), []⟩ :: blocks, c) := by unfold st; rw [hout]
      rw [hst] at hfind hcons
      simp only at hcons
      obtain ⟨hhd, hbs⟩ := List.cons.inj hcons
      subst hbs
      simp only [parseRun, hout, hfind, hptc]
      simp



theorem parseRun_last (n : Nat) (rest : List (List Char)) (blocks : List IfChangedBlock) :
    (∀ b ∈ blocks, b.range.2 = 0) → (parseRun n rest blocks).2 ≠ [] →
    (parseRun n rest blocks).1.getLast? =
      some (Except.error ((parseRun n rest blocks).2.reverse.map
        fun b => Msg.missingThenChange b.range.1)) := by
  induction n, rest, blocks using parseRun.induct with
  | case1 n blocks =>
    intro hop h2
    simp only [parseRun] at h2 ⊢
    rw [if_neg h2]
    have hfil : blocks.reverse.filter (fun b => b.range.2 == 0) = blocks.reverse := by
      rw [List.filter_eq_self]
      intro b hb
      simpa using hop b (List.mem_reverse.mp hb)
    rw [hfil]
    rfl
  | case2 n blocks l rest' m e heq ih =>
    intro hop h2
    simp only [parseRun, heq] at h2 ⊢
    rw [getLast?_cons_of_ne _ _ (parseRun_fst_ne _ _ _ h2)]
    exact ih hop h2
  | case3 n blocks l rest' m hne st hfind ih =>
    intro hop h2
    cases hout : parseIfChanged m l with
    | err e0 => exact absurd hout (by intro h; exact hne e0 h)
    | noMarker c =>
      have hst : st = (blocks, c) := by unfold st; rw [hout]
      rw [hst] at hfind ih
      simp only [parseRun, hout, hfind] at h2 ⊢
      exact ih hop h2
    | marker nm c =>
      have hst : st = (⟨nm, (m, 0), []⟩ :: blocks, c) := by unfold st; rw [hout]
      rw [hst] at hfind ih
      have hop' : ∀ b ∈ ({ name := nm, range := (m, 0), patterns := [] } : IfChangedBlock) ::
          blocks, b.range.2 = 0 := by
        intro b hb
        rcases List.mem_cons.mp hb with hb | hb
        · subst hb; rfl
        · exact hop b hb
      simp only [parseRun, hout, hfind] at h2 ⊢
      exact ih hop' h2
  | case4 n blocks l rest' m c2 msgs k hptc hne st hfind hnil ih =>
    intro hop h2
    cases hout : parseIfChanged m l with
    | err e0 => exact absurd hout (by intro h; exact hne e0 h)
    | noMarker c =>
      have hst : st = (blocks, c) := by unfold st; rw [hout]
      rw [hst] at hfind hnil
      simp only at hnil
      subst hnil
      simp only [parseRun, hout, hfind, hptc] at h2 ⊢
      rw [getLast?_cons_of_ne _ _ (parseRun_fst_ne _ _ _ h2)]
      exact ih (by intro b hb; cases hb) h2
    | marker nm c =>
      have hst : st = (⟨nm, (m, 0), []⟩ :: blocks, c) := by unfold st; rw [hout]
      rw [hst] at hnil
      simp at hnil
  | case5 n blocks l rest' m c2 msgs k hptc hd bs hne st hfind hcons ih =>
    intro hop h2
    cases hout : parseIfChanged m l with
    | err e0 => exact absurd hout (by intro h; exact hne e0 h)
    | noMarker c =>
      have hst : st = (blocks, c) := by unfold st; rw [hout]
      rw [hst] at hfind hcons
      simp only at hcons
      subst hcons
      simp only [parseRun, hout, hfind, hptc] at h2 ⊢
      rw [getLast?_cons_of_ne _ _ (parseRun_fst_ne _ _ _ h2)]
      exact ih (by intro b hb; exact hop b (List.mem_cons_of_mem hd hb)) h2
    | marker nm c =>
      have hst : st = (⟨nm, (m, 0), []⟩ :: blocks, c) := by unfold st; rw [hout]
      rw [hst] at hfind hcons
      simp only at hcons
      obtain ⟨hhd, hbs⟩ := List.cons.inj hcons
      subst hbs
      simp only [parseRun, hout, hfind, hptc] at h2 ⊢
      rw [getLast?_cons_of_ne _ _ (parseRun_fst_ne _ _ _ h2)]
      exact ih hop h2
  | case6 n blocks l rest' m c2 pats k hptc hne st hfind hnil ih =>
    intro hop h2
    cases hout : parseIfChanged m l with
    | err e0 => exact absurd hout (by intro h; exact hne e0 h)
    | noMarker c =>
      have hst : st = (blocks, c) := by unfold st; rw [hout]
      rw [hst] at hfind hnil
      simp only at hnil
      subst hnil
      simp only [parseRun, hout, hfind, hptc] at h2 ⊢
      rw [getLast?_cons_of_ne _ _ (parseRun_fst_ne _ _ _ h2)]
      exact ih (by intro b hb; cases hb) h2
    | marker nm c =>
      have hst : st = (⟨nm, (m, 0), []⟩ :: blocks, c) := by unfold st; rw [hout]
      rw [hst] at hnil
      simp at hnil
  | case7 n blocks l rest' m c2 pats k hptc hd bs hne st hfind hcons ih =>
    intro hop h2
    cases hout : parseIfChanged m l with
    | err e0 => exact absurd hout (by intro h; exact hne e0 h)
    | noMarker c =>
      have hst : st = (blocks, c) := by unfold st; rw [hout]
      rw [hst] at hfind hcons
      simp only at hcons
      subst hcons
      simp only [parseRun, hout, hfind, hptc] at h2 ⊢
      rw [getLast?_cons_of_ne _ _ (parseRun_fst_ne _ _ _ h2)]
      exact ih (by intro b hb; exact hop b (List.mem_cons_of_mem hd hb)) h2
    | marker nm c =>
      have hst : st = (⟨nm, (m, 0), []⟩ :: blocks, c) := by unfold st; rw [hout]
      rw [hst] at hfind hcons
      simp only at hcons
      obtain ⟨hhd, hbs⟩ := List.cons.inj hcons
      subst hbs
      simp only [parseRun, hout, hfind, hptc] at h2 ⊢
      rw [getLast?_cons_of_ne _ _ (parseRun_fst_ne _ _ _ h2)]
      exact ih hop h2



theorem parseIfChanged_err (n : Nat) (l : List Char) (e : List Msg)
    (h : parseIfChanged n l = .err e) : e = [.noRParenIfChanged n] := by
  simp only [parseIfChanged] at h
  split at h
  · cases h
  · split at h
    · cases h
    · split at h
      · cases h; rfl
      · cases h

theorem ptcLines_fail_msgs (tcLine : Nat) (rest : List (List Char)) :
    ∀ (lineNo : Nat) (cur buffer : List Char) (patLine : Nat) (acc : List Pattern)
      (msgs : List Msg) (k : Nat),
      ptcLines tcLine lineNo cur buffer patLine acc rest = .fail msgs k →
      ∀ m ∈ msgs, isCouldNotFindFile m = false := by
  induction rest with
  | nil =>
    intro lineNo cur buffer patLine acc msgs k h m hm
    cases hscan : scanLine lineNo cur buffer patLine acc with
    | done pats => rw [ptcLines, hscan] at h; cases h
    | fail pl =>
      rw [ptcLines, hscan] at h
      cases h
      simp only [List.mem_singleton] at hm
      subst hm; rfl
    | needMore b pl a =>
      rw [ptcLines, hscan] at h
      simp only at h
      cases h
      simp only [List.mem_singleton] at hm
      subst hm; rfl
  | cons l rest' ih =>
    intro lineNo cur buffer patLine acc msgs k h m hm
    cases hscan : scanLine lineNo cur buffer patLine acc with
    | done pats => rw [ptcLines, hscan] at h; cases h
    | fail pl =>
      rw [ptcLines, hscan] at h
      cases h
      simp only [List.mem_singleton] at hm
      subst hm; rfl
    | needMore b pl a =>
      rw [ptcLines, hscan] at h
      simp only at h
      cases hrec : ptcLines tcLine (lineNo + 1) (skipComments l) b pl a rest' with
      | ok pats k0 => rw [hrec] at h; cases h
      | fail m0 k0 =>
        rw [hrec] at h
        cases h
        exact ih _ _ _ _ _ _ _ hrec m hm

theorem parseThenChangePaths_fail_msgs (tcLine : Nat) (cur : List Char)
    (rest : List (List Char)) (msgs : List Msg) (k : Nat)
    (h : parseThenChangePaths tcLine cur rest = .fail msgs k) :
    ∀ m ∈ msgs, isCouldNotFindFile m = false := by
  simp only [parseThenChangePaths] at h
  split at h
  · cases h
    intro m hm
    simp only [List.mem_singleton] at hm
    subst hm; rfl
  · exact ptcLines_fail_msgs tcLine rest _ _ _ _ _ _ _ h

theorem parseRun_error_msgs (n : Nat) (rest : List (List Char))
    (blocks : List IfChangedBlock) :
    ∀ e, Except.error e ∈ (parseRun n rest blocks).1 →
      ∀ m ∈ e, isCouldNotFindFile m = false := by
  induction n, rest, blocks using parseRun.induct with
  | case1 n blocks =>
    intro e he m hm
    simp only [parseRun] at he
    by_cases hb : blocks = []
    · rw [if_pos hb] at he; cases he
    · rw [if_neg hb] at he
      simp only [List.mem_singleton] at he
      cases he
      simp only [List.mem_map] at hm
      obtain ⟨b, _, hb'⟩ := hm
      subst hb'; rfl
  | case2 n blocks l rest' m0 e0 heq ih =>
    intro e he m hm
    simp only [parseRun, heq] at he
    rcases List.mem_cons.mp he with he | he
    · cases he
      have := parseIfChanged_err m0 l e0 heq
      subst this
      simp only [List.mem_singleton] at hm
      subst hm; rfl
    · exact ih e he m hm
  | case3 n blocks l rest' m0 hne st hfind ih =>
    intro e he m hm
    cases hout : parseIfChanged m0 l with
    | err e0 => exact absurd hout (by intro h; exact hne e0 h)
    | noMarker c =>
      have hst : st = (blocks, c) := by unfold st; rw [hout]
      rw [hst] at hfind ih
      simp only [parseRun, hout, hfind] at he
      exact ih e he m hm
    | marker nm c =>
      have hst : st = (⟨nm, (m0, 0), []⟩ :: blocks, c) := by unfold st; rw [hout]
      rw [hst] at hfind ih
      simp only [parseRun, hout, hfind] at he
      exact ih e he m hm
  | case4 n blocks l rest' m0 c2 msgs k hptc hne st hfind hnil ih =>
    intro e he m hm
    cases hout : parseIfChanged m0 l with
    | err e0 => exact absurd hout (by intro h; exact hne e0 h)
    | noMarker c =>
      have hst : st = (blocks, c) := by unfold st; rw [hout]
      rw [hst] at hfind hnil
      simp only at hnil
      subst hnil
      simp only [parseRun, hout, hfind, hptc] at he
      rcases List.mem_cons.mp he with he | he
      · cases he
        rcases List.mem_cons.mp hm with hm | hm
        · subst hm; rfl
        · exact parseThenChangePaths_fail_msgs m0 c2 rest' msgs k hptc m hm
      · exact ih e he m hm
    | marker nm c =>
      have hst : st = (⟨nm, (m0, 0), []⟩ :: blocks, c) := by unfold st; rw [hout]
      rw [hst] at hnil
      simp at hnil
  | case5 n blocks l rest' m0 c2 msgs k hptc hd bs hne st hfind hcons ih =>
    intro e he m hm
    cases hout : parseIfChanged m0 l with
    | err e0 => exact absurd hout (by intro h; exact hne e0 h)
    | noMarker c =>
      have hst : st = (blocks, c) := by unfold st; rw [hout]
      rw [hst] at hfind hcons
      simp only at hcons
      subst hcons
      simp only [parseRun, hout, hfind, hptc] at he
      rcases List.mem_cons.mp he with he | he
      · cases he
        exact parseThenChangePaths_fail_msgs m0 c2 rest' msgs k hptc m hm
      · exact ih e he m hm
    | marker nm c =>
      have hst : st = (⟨nm, (m0, 0), []⟩ :: blocks, c) := by unfold st; rw [hout]
      rw [hst] at hfind hcons
      simp only at hcons
      obtain ⟨hhd, hbs⟩ := List.cons.inj hcons
      subst hbs
      simp only [parseRun, hout, hfind, hptc] at he
      rcases List.mem_cons.mp he with he | he
      · cases he
        exact parseThenChangePaths_fail_msgs m0 c2 rest' msgs k hptc m hm
      · exact ih e he m hm
  | case6 n blocks l rest' m0 c2 pats k hptc hne st hfind hnil ih =>
    intro e he m hm
    cases hout : parseIfChanged m0 l with
    | err e0 => exact absurd hout (by intro h; exact hne e0 h)
    | noMarker c =>
      have hst : st = (blocks, c) := by unfold st; rw [hout]
      rw [hst] at hfind hnil
      simp only at hnil
      subst hnil
      simp only [parseRun, hout, hfind, hptc] at he
      rcases List.mem_cons.mp he with he | he
      · cases he
        simp only [List.mem_singleton] at hm
        subst hm; rfl
      · exact ih e he m hm
    | marker nm c =>
      have hst : st = (⟨nm, (m0, 0), []⟩ :: blocks, c) := by unfold st; rw [hout]
      rw [hst] at hnil
      simp at hnil
  | case7 n blocks l rest' m0 c2 pats k hptc hd bs hne st hfind hcons ih =>
    intro e he m hm
    cases hout : parseIfChanged m0 l with
    | err e0 => exact absurd hout (by intro h; exact hne e0 h)
    | noMarker c =>
      have hst : st = (blocks, c) := by unfold st; rw [hout]
      rw [hst] at hfind hcons
      simp only at hcons
      subst hcons
      simp only [parseRun, hout, hfind, hptc] at he
      rcases List.mem_cons.mp he with he | he
      · cases he
      · exact ih e he m hm
    | marker nm c =>
      have hst : st = (⟨nm, (m0, 0), []⟩ :: blocks, c) := by unfold st; rw [hout]
      rw [hst] at hfind hcons
      simp only at hcons
      obtain ⟨hhd, hbs⟩ := List.cons.inj hcons
      subst hbs
      simp only [parseRun, hout, hfind, hptc] at he
      rcases List.mem_cons.mp he with he | he
      · cases he
      · exact ih e he m hm

/-- Claim C7: whenever a parse reaches end of input with blocks still open,
the parser's final yielded item is one `error` holding exactly one
`Missing "then-changed" for "if-changed" at line ...` message per unclosed
block, each naming that block's opening line; every block still on the stack
has an unset end (so the source's `range.1 == 0` filter drops none of them),
and the batch is emitted only at end of input, as the run's last item. -/
theorem c7_theorem (ls : List (List Char)) (h : openAtEof ls ≠ []) :
    (parseAll ls).getLast? =
      some (Except.error ((openAtEof ls).reverse.map
        fun b => Msg.missingThenChange b.range.1)) ∧
    ∀ b ∈ openAtEof ls, b.range.2 = 0 := by
  constructor
  · exact parseRun_last 0 ls [] (by intro b hb; cases hb) h
  · exact parseRun_snd_open 0 ls [] (by intro b hb; cases hb)

/-- Witness for `c7_theorem`: two blocks left open at end of file. -/
theorem c7_witness :
    (parseAll [txt "// if-changed", txt "x", txt "// if-changed(z)", txt "y"]).getLast? =
      some (Except.error
        ((openAtEof [txt "// if-changed", txt "x", txt "// if-changed(z)", txt "y"]).reverse.map
          fun b => Msg.missingThenChange b.range.1)) :=
  (c7_theorem [txt "// if-changed", txt "x", txt "// if-changed(z)", txt "y"]
    (by simp [openAtEof, parseRun, parseIfChanged, skipComments, skipWs, stripLit,
      findCharIdx?, findSubIdx?, findThenChange, startsWithL, commentChar,
      COMMENT_START_TOKENS, txt])).1

/-! ## Claim C9 -/

theorem checkGo_first_error (w : World) (path : List Char)
    (post : List (Except (List Msg) IfChangedBlock)) (e : List Msg) :
    ∀ (pre : List (Except (List Msg) IfChangedBlock)) (acc : List Msg),
      (∀ x ∈ pre, ∃ b, x = Except.ok b) →
      checkGo w path (pre ++ Except.error e :: post) acc = Except.error e := by
  intro pre
  induction pre with
  | nil => intro acc _; rfl
  | cons x pre' ih =>
    intro acc hok
    obtain ⟨b, hb⟩ := hok x (List.mem_cons_self x pre')
    subst hb
    rw [List.cons_append]
    simp only [checkGo]
    split
    · exact ih _ fun y hy => hok y (List.mem_cons_of_mem _ hy)
    · exact ih _ fun y hy => hok y (List.mem_cons_of_mem _ hy)

/-- Claim C9: when the parse of the checked file yields a structural error,
`check` returns exactly that error list, discarding every obligation
violation accumulated from the blocks successfully parsed before it. -/
theorem c9_theorem (w : World) (path : List Char) (ls : List (List Char)) (e : List Msg)
    (pre post : List (Except (List Msg) IfChangedBlock))
    (hf : w.fileOf path = some ls)
    (hp : parseAll ls = pre ++ Except.error e :: post)
    (hok : ∀ x ∈ pre, ∃ b, x = Except.ok b) :
    check w path = Except.error e := by
  simp only [check, hf]
  rw [hp]
  exact checkGo_first_error w path post e pre [] hok

/-- Witness for `c9_theorem`: in `worldDropped` the first block's violation
(`b.js` is unmatched) is accumulated and then discarded when the second
`then-change` with no open block aborts the parse. -/
theorem c9_witness : check worldDropped (txt "a.js") = Except.error [Msg.missingIfChanged 4] :=
  c9_theorem worldDropped (txt "a.js")
    [txt "// if-changed", txt "x", txt "// then-change(b.js)", txt "// then-change(c.js)"]
    [Msg.missingIfChanged 4]
    [Except.ok ⟨none, (1, 3), [⟨none, txt "b.js", 3⟩]⟩] []
    (by rfl)
    (by simp [parseAll, parseRun, parseIfChanged, skipComments, skipWs, stripLit, findCharIdx?,
      findSubIdx?, findThenChange, parseThenChangePaths, ptcLines, scanLine, scanLineF,
      trim, trimEnd, splitOnceChar, startsWithL, commentChar, COMMENT_START_TOKENS, txt])
    (by rintro x hx; simp only [List.mem_singleton] at hx; exact ⟨_, hx⟩)

/-! ## Claim C1 -/

theorem findNamed_error_mem (items : List (Except (List Msg) IfChangedBlock))
    (nm : List Char) (e : List Msg)
    (h : findNamed items nm = some (Except.error e)) : Except.error e ∈ items := by
  induction items with
  | nil => cases h
  | cons it items ih =>
    simp only [findNamed, List.findSome?_cons] at h
    cases it with
    | ok b =>
      by_cases hb : b.name = some nm
      · simp only [hb, if_true] at h
        cases h
      · simp only [hb, if_false] at h
        exact List.mem_cons_of_mem _ (ih h)
    | error e0 =>
      simp only at h
      cases h
      exact List.mem_cons_self _ _

theorem namedViolations_msgs (w : World) (file patv nm : List Char) (line : Nat) :
    ∀ m ∈ namedViolations w file patv nm line, isCouldNotFindFile m = false := by
  intro m hm
  simp only [namedViolations, List.mem_flatMap] at hm
  obtain ⟨r, hr, hm⟩ := hm
  cases r with
  | error p =>
    simp only [List.mem_singleton] at hm
    subst hm; rfl
  | ok dep =>
    simp only at hm
    cases hfo : w.fileOf dep with
    | none =>
      simp only [hfo, List.mem_singleton] at hm
      subst hm; rfl
    | some ls =>
      simp only [hfo] at hm
      cases hfn : findNamed (parseAll ls) nm with
      | none =>
        simp only [hfn, List.mem_singleton] at hm
        subst hm; rfl
      | some it =>
        cases it with
        | error e2 =>
          simp only [hfn] at hm
          exact parseRun_error_msgs 0 ls [] e2 (findNamed_error_mem _ _ _ hfn) m hm
        | ok blk =>
          simp only [hfn] at hm
          by_cases hmod : isRangeModified (w.patchOf dep) blk.range = true
          · simp only [hmod, if_true] at hm
            cases hm
          · simp only [hmod, Bool.false_eq_true, if_false, List.mem_singleton] at hm
            subst hm; rfl

theorem checkBlock_msgs (w : World) (path : List Char) (b : IfChangedBlock) :
    ∀ m ∈ checkBlock w path b, isCouldNotFindFile m = false := by
  intro m hm
  simp only [checkBlock, List.mem_append] at hm
  rcases hm with hm | hm
  · simp only [List.mem_filterMap] at hm
    obtain ⟨r, hr, hm⟩ := hm
    cases r with
    | ok p => cases hm
    | error pat =>
      simp only [Option.some.injEq] at hm
      subst hm; rfl
  · simp only [List.mem_flatMap] at hm
    obtain ⟨kv, hkv, hm⟩ := hm
    exact namedViolations_msgs w path kv.1 kv.2.1 kv.2.2 m hm

theorem checkGo_msgs (w : World) (path : List Char) :
    ∀ (items : List (Except (List Msg) IfChangedBlock)) (acc msgs : List Msg),
      (∀ e, Except.error e ∈ items → ∀ m ∈ e, isCouldNotFindFile m = false) →
      (∀ m ∈ acc, isCouldNotFindFile m = false) →
      checkGo w path items acc = Except.error msgs →
      ∀ m ∈ msgs, isCouldNotFindFile m = false := by
  intro items
  induction items with
  | nil =>
    intro acc msgs hitems hacc h
    simp only [checkGo] at h
    split at h
    · cases h
    · cases h; exact hacc
  | cons it rest ih =>
    intro acc msgs hitems hacc h
    cases it with
    | error e =>
      simp only [checkGo] at h
      cases h
      exact hitems _ (List.mem_cons_self _ _)
    | ok b =>
      simp only [checkGo] at h
      split at h
      · refine ih _ _ (fun e he => hitems e (List.mem_cons_of_mem _ he)) ?_ h
        intro m hm
        rcases List.mem_append.mp hm with hm | hm
        · exact hacc m hm
        · exact checkBlock_msgs w path b m hm
      · exact ih _ _ (fun e he => hitems e (List.mem_cons_of_mem _ he)) hacc h

/-- Amended C1: `Engine::check` never reports the distinct
`Could not find any file matching ...` violation kind — a pattern that
resolves to no file at all in the tree is reported with the same
`Expected ... to be modified` kind as a pattern resolving to files that are
merely unchanged (the distinct kind appears only in the superseded
`Checker::check` of `src/checker.rs`, which is not part of the crate's module
tree). -/
theorem c1_amended (w : World) (path : List Char) (msgs : List Msg)
    (h : check w path = Except.error msgs) :
    ∀ m ∈ msgs, isCouldNotFindFile m = false := by
  cases hfo : w.fileOf path with
  | none =>
    simp only [check, hfo] at h
    cases h
    intro m hm
    simp only [List.mem_singleton] at hm
    subst hm; rfl
  | some ls =>
    simp only [check, hfo] at h
    exact checkGo_msgs w path (parseAll ls) [] msgs
      (fun e he => parseRun_error_msgs 0 ls [] e he) (by intro m hm; cases hm) h

/-- Claim C1 is false on `worldNoFile`, the `test_check_fail` scenario of the
source: the obligation's pattern `src/b.js` matches no file in the tree at
all, yet the reported violation is of the `Expected ... to be modified` kind,
not the `Could not find any file matching ...` kind. -/
theorem c1_counterexample :
    check worldNoFile (txt "src/a.js") =
      Except.error [Msg.expectedModified (txt "src/b.js") (txt "src/a.js") 3] ∧
    worldNoFile.fileOf (txt "src/b.js") = none ∧
    ∀ pat file line,
      Msg.expectedModified (txt "src/b.js") (txt "src/a.js") 3 ≠
        Msg.couldNotFindFile pat file line := by
  refine ⟨?_, rfl, ?_⟩
  · simp [check, checkGo, checkBlock, namedViolations, findNamed, World.fileOf, World.patchOf,
      worldNoFile, line2Patch, isRangeModified, scanHunks, lineHit, mapInsert, lexLt, pathJoin,
      parentDir, matchesList, globMatch, globMatchF, firstMatch, patMatches, patCore, isNegPat,
      stripLeadingSep, parseAll, parseRun, parseIfChanged, skipComments, skipWs, stripLit,
      findCharIdx?, findSubIdx?, findThenChange, parseThenChangePaths, ptcLines, scanLine,
      scanLineF, trim, trimEnd, splitOnceChar, startsWithL, commentChar, COMMENT_START_TOKENS,
      txt, List.lookup]
  · intro pat file line
    simp

/-- Witness for `c1_amended` at `worldNoFile`: the violation the check
produces there is not of the `Could not find any file matching` kind. -/
theorem c1_amended_witness :
    isCouldNotFindFile (Msg.expectedModified (txt "src/b.js") (txt "src/a.js") 3) = false :=
  c1_amended worldNoFile (txt "src/a.js")
    [Msg.expectedModified (txt "src/b.js") (txt "src/a.js") 3]
    c1_counterexample.1
    (Msg.expectedModified (txt "src/b.js") (txt "src/a.js") 3) (List.mem_singleton.mpr rfl)

/-- Witness for `c5_amended` at concrete inputs: an untracked patch is
modified for a concrete range, and the boundary example holds. -/
theorem c5_amended_witness :
    isRangeModified (some ⟨true, []⟩) (3, 7) = true ∧
    isRangeModified (some addPatch) (12, 20) = true :=
  ⟨c5_amended.1 [] (3, 7), c5_amended.2.2.1⟩
